import Mathlib

/-!
Shallow embedding of the inference-and-selection engine of `vastasanuli.py`
(the configurable 5/6-letter variant, the repository's single source file).

Modelling conventions:
* Python strings that stand for words are `List Char` (`Word`).
* A grid cell is its text content (`Option Char`; `none` models the empty
  string) together with its CSS class list, exactly as `Cell` in the source
  stores `content` and `classes`.
* Python `dict` / `defaultdict(set)` are association lists updated in place
  (`updateAssoc`, `upsertKU`); Python `set` of letters is `Finset Char`.
* `infer_next_options` is a generator that may raise `Win` before yielding
  anything; it is embedded as `Except Word (List Word)` where `Except.error`
  carries the `Win` payload (raised before any word is produced, so the
  error case carries no candidate list at all).
* Float arithmetic in `score_word` is modelled over `ℚ`: the sums involved
  are small integers (exact in floats) and every claim about scores concerns
  exact algebraic identities, which are insensitive to this choice.
* The corpus `words.txt` is not part of the source tree; every definition is
  parameterised by the word list `allWords`, and `load_words` embeds the
  load-time filtering applied to the raw lines.
-/

/-- A word, as the list of its characters (a Python `str`). -/
abbrev Word : Type := List Char

deriving instance DecidableEq for Except

/-- A grid cell: tile text content (`none` = empty string) and CSS classes,
mirroring `Cell(content, classes)` in the source. -/
structure Cell where
  content : Option Char
  classes : List String
deriving DecidableEq

/-- `Cell.empty`: `not self.content`. -/
def Cell.empty (c : Cell) : Bool := c.content.isNone

/-- `Cell.correct`: `"correct" in self.classes`. -/
def Cell.correct (c : Cell) : Bool := c.classes.contains "correct"

/-- `Cell.present`: `"present" in self.classes`. -/
def Cell.present (c : Cell) : Bool := c.classes.contains "present"

/-- `Cell.absent`: `"absent" in self.classes`. -/
def Cell.absent (c : Cell) : Bool := c.classes.contains "absent"

/-- The constraint state accumulated by `infer_next_options`. -/
structure Constraints where
  known_indexes : List (Nat × Char)
  present_letters : Finset Char
  forbidden_letters : Finset Char
  known_unindexes : List (Nat × Finset Char)
deriving DecidableEq

/-- The initial, empty constraint state. -/
def initConstraints : Constraints := ⟨[], ∅, ∅, []⟩

/-- `known_indexes[x] = c` on a Python dict: replace the entry for key `x`
in place if it exists, otherwise append a fresh entry. -/
def updateAssoc (ki : List (Nat × Char)) (x : Nat) (c : Char) : List (Nat × Char) :=
  if ki.any (fun p => decide (p.1 = x)) then
    ki.map (fun p => if p.1 = x then (x, c) else p)
  else
    ki ++ [(x, c)]

/-- `known_unindexes[x].add(c)` on a Python `defaultdict(set)`. -/
def upsertKU (ku : List (Nat × Finset Char)) (x : Nat) (c : Char) :
    List (Nat × Finset Char) :=
  if ku.any (fun p => decide (p.1 = x)) then
    ku.map (fun p => if p.1 = x then (p.1, insert c p.2) else p)
  else
    ku ++ [(x, {c})]

/-- `set(known_indexes.values())`. -/
def kiValues (ki : List (Nat × Char)) : Finset Char := (ki.map Prod.snd).toFinset

/-- The body of the inner cell loop of `infer_next_options`: skip content-less
cells, else route the letter by `correct` / `present` / `absent` precedence. -/
def processCell (s : Constraints) (x : Nat) (cell : Cell) : Constraints :=
  match cell.content with
  | none => s
  | some c =>
    if cell.correct then
      { s with known_indexes := updateAssoc s.known_indexes x c }
    else if cell.present then
      { s with present_letters := insert c s.present_letters }
    else if cell.absent then
      { s with forbidden_letters := insert c s.forbidden_letters,
               known_unindexes := upsertKU s.known_unindexes x c }
    else s

/-- `for x, cell in enumerate(row)`, starting from index `x`. -/
def processCells (s : Constraints) (x : Nat) : List Cell → Constraints
  | [] => s
  | cell :: rest => processCells (processCell s x cell) (x + 1) rest

/-- One iteration of the row loop: rows whose cells are all empty are
skipped (`if all(c.empty for c in row): continue`). -/
def processRow (s : Constraints) (row : List Cell) : Constraints :=
  if row.all Cell.empty then s else processCells s 0 row

/-- The full row loop of `infer_next_options`. -/
def processRows (s : Constraints) : List (List Cell) → Constraints
  | [] => s
  | row :: rest => processRows (processRow s row) rest

/-- The raw constraint state after the row loop, before the subtraction. -/
def derive_raw (rows : List (List Cell)) : Constraints :=
  processRows initConstraints rows

/-- `forbidden_letters -= set(known_indexes.values()); forbidden_letters -=
present_letters`. -/
def subtract_known (s : Constraints) : Constraints :=
  { s with forbidden_letters :=
      (s.forbidden_letters \ kiValues s.known_indexes) \ s.present_letters }

/-- The constraint state `infer_next_options` works with after both loops and
the subtraction step. -/
def derive_constraints (rows : List (List Cell)) : Constraints :=
  subtract_known (derive_raw rows)

/-- Comparison used to sort `known_indexes.items()`: Python compares the
`(index, letter)` tuples lexicographically, which on the distinct keys of a
dict is ordering by index. -/
def keyLe (p q : Nat × Char) : Prop := p.1 ≤ q.1

instance : DecidableRel keyLe := fun p q => Nat.decLe p.1 q.1

instance : IsTotal (Nat × Char) keyLe := ⟨fun p q => Nat.le_total p.1 q.1⟩

instance : IsTrans (Nat × Char) keyLe := ⟨fun _ _ _ h h' => Nat.le_trans h h'⟩

/-- `"".join(c for (i, c) in sorted(known_indexes.items()))`. -/
def win_word (ki : List (Nat × Char)) : Word :=
  (List.insertionSort keyLe ki).map Prod.snd

/-- The per-word test of the candidate loop of `infer_next_options`: a word
survives every `continue` iff all five checks pass.  (The Python guards
`if known_indexes and ...` / `if known_unindexes and ...` are no-ops when the
collections are empty, since `all`/`any` over nothing already give the same
outcome.) -/
def word_matches (s : Constraints) (n : Nat) (w : Word) : Bool :=
  decide (w.length = n) &&
  s.known_indexes.all (fun p => decide (w.getD p.1 ' ' = p.2)) &&
  s.known_unindexes.all (fun p => !(decide (w.getD p.1 ' ' ∈ p.2))) &&
  decide (w.toFinset ∩ s.forbidden_letters = ∅) &&
  decide (s.present_letters \ w.toFinset = ∅)

/-- `infer_next_options(rows, n_letters=n)`: derive constraints, raise
`Win(word)` when every index is known (`Except.error`, produced before any
candidate is yielded), otherwise yield the matching corpus words in order. -/
def infer_next_options (allWords : List Word) (rows : List (List Cell)) (n : Nat) :
    Except Word (List Word) :=
  let s := derive_constraints rows
  if s.known_indexes.length = n then
    Except.error (win_word s.known_indexes)
  else
    Except.ok (allWords.filter (word_matches s n))

/-- The fixed letter-frequency ordering behind `fi_freq`. -/
def fiFreqOrder : List Char := "aitneslokuämvrjhypdögbfcwåq".toList

/-- `fi_freq.get(letter, 0)`: the enumerate index of the letter in the
frequency ordering, defaulting to `0` when the letter is not listed. -/
def fi_freq_rank (c : Char) : Nat :=
  (fiFreqOrder.findIdx? (fun a => a == c)).getD 0

/-- `score_word`, over `ℚ`: the variable called `freq_sum` in the source is
the reciprocal `1 / Σ (1 + rank)`, multiplied by the distinct-letter count. -/
def score_word (w : Word) : ℚ :=
  let freq_sum : ℚ := 1 / ((w.map (fun letter => (1 + fi_freq_rank letter : ℚ))).sum)
  let entropy : ℚ := (w.toFinset.card : ℚ)
  freq_sum * entropy

/-- Lexicographic comparison of words, as Python `sorted` compares strings. -/
def lexLeB : Word → Word → Bool
  | [], _ => true
  | _ :: _, [] => false
  | a :: as, b :: bs => if a = b then lexLeB as bs else decide (a < b)

/-- `get_start_words(n)`: `sorted(w for w in all_words if len(set(w)) == n)`.
Note the filter is on the number of distinct letters, not on word length. -/
def get_start_words (allWords : List Word) (n : Nat) : List Word :=
  List.insertionSort (fun a b => lexLeB a b = true)
    (allWords.filter (fun w => decide (w.toFinset.card = n)))

/-- `LETTER_COUNT_CHOICES = (5, 6)`. -/
def LETTER_COUNT_CHOICES : List Nat := [5, 6]

/-- The supported alphabet `sanuli_letters`. -/
def sanuli_letters : Finset Char := "abcdefghijklmnopqrstuvwxyzåäö".toList.toFinset

/-- Whitespace in the sense of Python `str.strip()` (restricted to the ASCII
whitespace characters, the only ones relevant to a word-list line). -/
def isPySpace (c : Char) : Bool :=
  c = ' ' || c = '\t' || c = '\n' || c = '\r' || c = '\x0b' || c = '\x0c'

/-- `w.strip()`: drop whitespace from both ends. -/
def pyStrip (w : List Char) : List Char :=
  ((w.dropWhile isPySpace).reverse.dropWhile isPySpace).reverse

/-- `c.lower()` restricted to the characters a word-list line can contain:
ASCII upper-case letters and the three accented upper-case letters map to
their lower-case forms, everything else is fixed. -/
def pyLower (c : Char) : Char :=
  if 'A' ≤ c ∧ c ≤ 'Z' then Char.ofNat (c.toNat + 32)
  else if c = 'Å' then 'å'
  else if c = 'Ä' then 'ä'
  else if c = 'Ö' then 'ö'
  else c

/-- The corpus-loading comprehension: keep a line iff the *stripped* (not yet
lower-cased) word has an accepted length and all its letters lie in
`sanuli_letters`; store the stripped word lower-cased. -/
def load_words (lines : List (List Char)) : List Word :=
  (lines.filter (fun w =>
      decide ((pyStrip w).length ∈ LETTER_COUNT_CHOICES) &&
      decide ((pyStrip w).toFinset ⊆ sanuli_letters))).map
    (fun w => (pyStrip w).map pyLower)

/-- `list(set(infer_next_options(...)) - words_attempted)`: the yielded
candidates, deduplicated, minus the attempted words. -/
def constrained_pool (cands : List Word) (attempted : Finset Word) : List Word :=
  cands.dedup.filter (fun w => decide (w ∉ attempted))

/-- The `if not word_cands:` fallback of `play`: an empty candidate pool is
replaced by the full length-`n` corpus with `weights = None` (uniform). -/
def apply_fallback (allWords : List Word) (n : Nat)
    (cands : List Word) (weights : Option (List ℚ)) : List Word × Option (List ℚ) :=
  if cands.isEmpty then (allWords.filter (fun w => decide (w.length = n)), none)
  else (cands, weights)

/-- One round of `play`, up to the point where `random.choices(word_cands,
weights=weights)` draws a word: the candidate pool and its weights
(`none` = uniform).  `none` overall models `if not rows: continue` (grid not
yet loaded); `Except.error` models a propagating `Win`.

In the inference branch, `list(set(...) - words_attempted)` is modelled by
deduplicating the yielded candidates and removing attempted words (the
arbitrary iteration order of a Python set is irrelevant to every claim, which
only concern pool membership and the pairing of each word with its weight). -/
def round_pool (allWords : List Word) (rows : List (List Cell)) (n : Nat)
    (attempted : Finset Word) : Option (Except Word (List Word × Option (List ℚ))) :=
  match rows with
  | [] => none
  | r0 :: rest =>
    some <|
      if r0.all Cell.empty then
        Except.ok (apply_fallback allWords n (get_start_words allWords n) none)
      else
        match infer_next_options allWords (r0 :: rest) n with
        | Except.error w => Except.error w
        | Except.ok cands =>
          Except.ok (apply_fallback allWords n (constrained_pool cands attempted)
            (some ((constrained_pool cands attempted).map score_word)))

/-- The spec's `entropy(word)`: the number of distinct letters. -/
def spec_entropy (w : Word) : ℚ := (w.toFinset.card : ℚ)

/-- The spec's `frequencySum(word)`: the sum, over the word's letters with
repetition, of `1 + priorRank(letter)`. -/
def spec_frequencySum (w : Word) : ℚ :=
  (w.map (fun letter => (1 + fi_freq_rank letter : ℚ))).sum

/-- C4 (amended): after the subtraction step, `forbiddenLetters` is disjoint
from the `knownIndexes` values and from `presentLetters`.  (The claim's full
pairwise disjointness fails: `knownIndexes` values and `presentLetters` are
never made disjoint, see the counterexample.) -/
theorem forbidden_letters_disjoint (rows : List (List Cell)) :
    (derive_constraints rows).forbidden_letters ∩
        kiValues (derive_constraints rows).known_indexes = ∅
    ∧ (derive_constraints rows).forbidden_letters ∩
        (derive_constraints rows).present_letters = ∅ := by
  unfold derive_constraints subtract_known
  constructor <;>
  · apply Finset.eq_empty_iff_forall_not_mem.mpr
    intro x hx
    rw [Finset.mem_inter, Finset.mem_sdiff, Finset.mem_sdiff] at hx
    tauto

/-- C4 counterexample: on a legal one-row grid whose first cell is
Correct `'a'` and second cell Present `'a'` (a real situation with duplicate
letters), the `knownIndexes` values and `presentLetters` intersect, so the
three sets are not pairwise disjoint as the claim states. -/
theorem mutual_exclusivity_counterexample :
    kiValues (derive_constraints
        [[⟨some 'a', ["correct"]⟩, ⟨some 'a', ["present"]⟩,
          ⟨none, []⟩, ⟨none, []⟩, ⟨none, []⟩]]).known_indexes ∩
      (derive_constraints
        [[⟨some 'a', ["correct"]⟩, ⟨some 'a', ["present"]⟩,
          ⟨none, []⟩, ⟨none, []⟩, ⟨none, []⟩]]).present_letters ≠ ∅ := by
  decide

/-- C6 (amended): `score(word) = entropy(word) / frequencySum(word)` with
`frequencySum(word) = Σ (1 + priorRank(letter))`, where `priorRank` defaults
to `0` — i.e. most-frequent, not the large least-frequent constant the claim
states — for letters absent from the frequency table. -/
theorem scorer_formula :
    (∀ w : Word, score_word w = spec_entropy w / spec_frequencySum w)
    ∧ (∀ c : Char, fiFreqOrder.contains c = false → fi_freq_rank c = 0) := by
  constructor
  · intro w
    unfold score_word spec_entropy spec_frequencySum
    rw [one_div, inv_mul_eq_div]
  · intro c h
    unfold fi_freq_rank
    rw [List.findIdx?_eq_none_iff.mpr]
    · rfl
    · intro a ha
      by_contra hab
      rw [Bool.not_eq_false, beq_iff_eq] at hab
      subst hab
      rw [List.contains_eq_any_beq] at h
      simp only [List.any_eq_false, beq_iff_eq] at h
      exact h a ha rfl

/-- Witness for `scorer_formula` at the word `"kala"` and the letter `'x'`
(a supported letter that is missing from the frequency table). -/
theorem scorer_formula_witness :
    score_word "kala".toList = spec_entropy "kala".toList / spec_frequencySum "kala".toList
    ∧ fi_freq_rank 'x' = 0 :=
  ⟨scorer_formula.1 "kala".toList, scorer_formula.2 'x' (by decide)⟩

/-- C6 counterexample: `'x'` is a supported letter that is absent from the
frequency table, yet its default rank `0` is strictly smaller than the rank
of the listed letter `'q'` — the opposite of the claimed
"large constant, at least as large as every rank in the table". -/
theorem prior_default_counterexample :
    fiFreqOrder.contains 'x' = false
    ∧ fiFreqOrder.contains 'q' = true
    ∧ fi_freq_rank 'x' < fi_freq_rank 'q' := by
  decide

/-- C9: anagrams score identically — `score_word` is invariant under
permutation of the word's letters, since both the distinct-letter count and
the frequency sum depend only on the multiset of letters. -/
theorem score_permutation_invariant (w1 w2 : Word) (h : w1.Perm w2) :
    score_word w1 = score_word w2 := by
  unfold score_word
  rw [List.toFinset_eq_of_perm _ _ h,
      List.Perm.sum_eq (h.map (fun letter => (1 + fi_freq_rank letter : ℚ)))]

/-- Witness for `score_permutation_invariant` on the concrete anagrams
`"askel"` and `"leksa"`. -/
theorem score_permutation_invariant_witness :
    score_word "askel".toList = score_word "leksa".toList :=
  score_permutation_invariant _ _ (by decide)

/-- C10: a non-empty cell is routed into exactly one constraint set, with
precedence Correct over Present over Absent, and a non-empty cell carrying
none of the three markers contributes nothing.  Stated on the full
constraint-derivation pipeline applied to a one-cell grid with an arbitrary
class list (so several markers may be set simultaneously). -/
theorem cell_routing (cl : List String) (c : Char) :
    ((Cell.mk (some c) cl).correct = true →
      derive_constraints [[Cell.mk (some c) cl]] = ⟨[(0, c)], ∅, ∅, []⟩)
    ∧ ((Cell.mk (some c) cl).correct = false → (Cell.mk (some c) cl).present = true →
      derive_constraints [[Cell.mk (some c) cl]] = ⟨[], {c}, ∅, []⟩)
    ∧ ((Cell.mk (some c) cl).correct = false → (Cell.mk (some c) cl).present = false →
        (Cell.mk (some c) cl).absent = true →
      derive_constraints [[Cell.mk (some c) cl]] = ⟨[], ∅, {c}, [(0, {c})]⟩)
    ∧ ((Cell.mk (some c) cl).correct = false → (Cell.mk (some c) cl).present = false →
        (Cell.mk (some c) cl).absent = false →
      derive_constraints [[Cell.mk (some c) cl]] = initConstraints) := by
  refine ⟨fun h1 => ?_, fun h1 h2 => ?_, fun h1 h2 h3 => ?_, fun h1 h2 h3 => ?_⟩
  · simp [derive_constraints, derive_raw, processRows, processRow, processCells,
          processCell, Cell.empty, subtract_known, initConstraints, updateAssoc,
          upsertKU, kiValues, h1]
  · simp [derive_constraints, derive_raw, processRows, processRow, processCells,
          processCell, Cell.empty, subtract_known, initConstraints, updateAssoc,
          upsertKU, kiValues, h1, h2]
  · simp [derive_constraints, derive_raw, processRows, processRow, processCells,
          processCell, Cell.empty, subtract_known, initConstraints, updateAssoc,
          upsertKU, kiValues, h1, h2, h3]
  · simp [derive_constraints, derive_raw, processRows, processRow, processCells,
          processCell, Cell.empty, subtract_known, initConstraints, updateAssoc,
          upsertKU, kiValues, h1, h2, h3]

/-- Witness for `cell_routing`: a cell marked both Correct and Absent for the
letter `'a'` is routed to `knownIndexes` only. -/
theorem cell_routing_witness :
    derive_constraints [[Cell.mk (some 'a') ["correct", "absent"]]] =
      ⟨[(0, 'a')], ∅, ∅, []⟩ :=
  (cell_routing ["correct", "absent"] 'a').1 (by decide)

/-- C5 (amended): when the grid's first row is entirely empty, the Selector's
pool is exactly `get_start_words` with no scoring weights (uniform draw), and
every word of that pool is a corpus word with exactly `n` distinct letters.
(The claim's stronger description — length `n` with all letters distinct —
fails: the source filters on `len(set(w)) == n` only, see the
counterexample.) -/
theorem start_state_selection (allWords : List Word) (r0 : List Cell)
    (rest : List (List Cell)) (n : Nat) (attempted : Finset Word)
    (h0 : r0.all Cell.empty = true) (hne : get_start_words allWords n ≠ []) :
    round_pool allWords (r0 :: rest) n attempted =
      some (Except.ok (get_start_words allWords n, none))
    ∧ ∀ w ∈ get_start_words allWords n, w ∈ allWords ∧ w.toFinset.card = n := by
  constructor
  · simp only [round_pool, h0, if_true, apply_fallback]
    rw [if_neg]
    simp only [List.isEmpty_iff]
    exact hne
  · intro w hw
    have hperm := List.perm_insertionSort
      (fun a b => lexLeB a b = true)
      (allWords.filter (fun w => decide (w.toFinset.card = n)))
    rw [get_start_words] at hw
    have := hperm.mem_iff.mp hw
    rw [List.mem_filter] at this
    exact ⟨this.1, by simpa using this.2⟩

/-- Witness for `start_state_selection`: corpus `["ab"]`, an all-empty
two-cell first row, no attempted words. -/
theorem start_state_selection_witness :
    round_pool ["ab".toList] [[Cell.mk none [], Cell.mk none []]] 2 ∅ =
      some (Except.ok (get_start_words ["ab".toList] 2, none)) :=
  (start_state_selection ["ab".toList] [Cell.mk none [], Cell.mk none []] [] 2 ∅
    (by decide) (by decide)).1

/-- C5 counterexample: a corpus word accepted by the load-time filter
(length 6, all letters supported) that has exactly five distinct letters is
in `get_start_words _ 5`, although its length is not 5 and its letters are
not all distinct. -/
theorem start_words_counterexample :
    get_start_words ["aabcde".toList] 5 = ["aabcde".toList]
    ∧ ("aabcde".toList).length ≠ 5
    ∧ ¬ ("aabcde".toList).Nodup := by
  decide

/-- C8 (amended): a line is stored (stripped and lower-cased) in the corpus
iff the *stripped, not yet lower-cased* word has an accepted length and all
its letters lie in the supported (lower-case) alphabet; consequently every
stored word is already lower-case (lower-casing it again changes nothing).
(The claim's phrasing — acceptance decided on the stripped-and-lowercased
word — fails on upper-case lines, see the counterexample.) -/
theorem corpus_loading_amended :
    (∀ (lines : List (List Char)) (w : Word),
        w ∈ load_words lines ↔
          ∃ l, l ∈ lines ∧ w = (pyStrip l).map pyLower
            ∧ (pyStrip l).length ∈ LETTER_COUNT_CHOICES
            ∧ (pyStrip l).toFinset ⊆ sanuli_letters)
    ∧ (∀ (lines : List (List Char)) (w : Word), w ∈ load_words lines →
        w.map pyLower = w) := by
  have hfix : ∀ c ∈ sanuli_letters, pyLower c = c := by decide
  have hmem : ∀ (lines : List (List Char)) (w : Word),
      w ∈ load_words lines ↔
        ∃ l, l ∈ lines ∧ w = (pyStrip l).map pyLower
          ∧ (pyStrip l).length ∈ LETTER_COUNT_CHOICES
          ∧ (pyStrip l).toFinset ⊆ sanuli_letters := by
    intro lines w
    simp only [load_words, List.mem_map, List.mem_filter, Bool.and_eq_true,
      decide_eq_true_eq]
    constructor
    · rintro ⟨l, ⟨hl, hlen, hsub⟩, hw⟩
      exact ⟨l, hl, hw.symm, hlen, hsub⟩
    · rintro ⟨l, hl, hw, hlen, hsub⟩
      exact ⟨l, ⟨hl, hlen, hsub⟩, hw.symm⟩
  refine ⟨hmem, fun lines w hw => ?_⟩
  obtain ⟨l, _, hw, _, hsub⟩ := (hmem lines w).mp hw
  subst hw
  rw [List.map_map]
  apply List.map_congr_left
  intro c hc
  have hcs : c ∈ sanuli_letters := hsub (List.mem_toFinset.mpr hc)
  simp [Function.comp, hfix c hcs]

/-- Witness for `corpus_loading_amended` on the line `"kissa"`. -/
theorem corpus_loading_amended_witness :
    ("kissa".toList).map pyLower = "kissa".toList :=
  corpus_loading_amended.2 ["kissa".toList] "kissa".toList (by decide)

/-- C8 counterexample: for the line `"KISSA"`, the stripped-and-lowercased
word `"kissa"` has an accepted length and supported letters, yet the loader
stores nothing, because the alphabet test is applied before lower-casing and
rejects the upper-case letters. -/
theorem corpus_loading_counterexample :
    load_words ["KISSA".toList] = []
    ∧ ((pyStrip "KISSA".toList).map pyLower).length ∈ LETTER_COUNT_CHOICES
    ∧ ((pyStrip "KISSA".toList).map pyLower).toFinset ⊆ sanuli_letters := by
  decide

/-- Every entry of `updateAssoc ki x c` either has key `x` or was already
present. -/
theorem mem_updateAssoc (ki : List (Nat × Char)) (x : Nat) (c : Char) :
    ∀ p ∈ updateAssoc ki x c, p.1 = x ∨ p ∈ ki := by
  intro p hp
  unfold updateAssoc at hp
  split at hp
  · rw [List.mem_map] at hp
    obtain ⟨q, hq, hqe⟩ := hp
    by_cases h : q.1 = x
    · rw [if_pos h] at hqe
      left
      rw [← hqe]
    · rw [if_neg h] at hqe
      right
      rwa [← hqe]
  · rw [List.mem_append, List.mem_singleton] at hp
    rcases hp with hp | hp
    · right; exact hp
    · left; rw [hp]

/-- `updateAssoc` keeps the key list duplicate-free (a Python dict has
distinct keys). -/
theorem updateAssoc_keys_nodup (ki : List (Nat × Char)) (x : Nat) (c : Char)
    (h : (ki.map Prod.fst).Nodup) : ((updateAssoc ki x c).map Prod.fst).Nodup := by
  unfold updateAssoc
  split
  · have hkeys : (ki.map (fun p => if p.1 = x then (x, c) else p)).map Prod.fst
        = ki.map Prod.fst := by
      rw [List.map_map]
      apply List.map_congr_left
      intro p _
      by_cases hpx : p.1 = x
      · simp [Function.comp, hpx]
      · simp [Function.comp, hpx]
    rw [hkeys]
    exact h
  · rename_i hno
    rw [List.map_append, List.map_singleton, List.nodup_append]
    refine ⟨h, List.nodup_singleton x, ?_⟩
    intro a ha hax
    rw [List.mem_singleton] at hax
    subst hax
    rw [List.mem_map] at ha
    obtain ⟨p, hp, hpx⟩ := ha
    exact hno (List.any_eq_true.mpr ⟨p, hp, by simp [hpx]⟩)

/-- `processCell` keeps all `known_indexes` keys below `n` when the cell's
own position is below `n`. -/
theorem processCell_ki_bound (s : Constraints) (x : Nat) (cell : Cell) (n : Nat)
    (hb : ∀ p ∈ s.known_indexes, p.1 < n) (hx : x < n) :
    ∀ p ∈ (processCell s x cell).known_indexes, p.1 < n := by
  intro p hp
  unfold processCell at hp
  split at hp
  · exact hb p hp
  · split at hp
    · rcases mem_updateAssoc s.known_indexes x _ p hp with h | h
      · rw [h]; exact hx
      · exact hb p h
    · split at hp
      · exact hb p hp
      · split at hp
        · exact hb p hp
        · exact hb p hp

/-- `processCell` keeps the `known_indexes` keys duplicate-free. -/
theorem processCell_ki_nodup (s : Constraints) (x : Nat) (cell : Cell)
    (h : (s.known_indexes.map Prod.fst).Nodup) :
    (((processCell s x cell).known_indexes).map Prod.fst).Nodup := by
  unfold processCell
  split
  · exact h
  · split
    · exact updateAssoc_keys_nodup s.known_indexes x _ h
    · split
      · exact h
      · split
        · exact h
        · exact h

/-- The cell loop keeps `known_indexes` keys below `n` and duplicate-free,
provided the positions it will visit all stay below `n`. -/
theorem processCells_ki_inv (cells : List Cell) :
    ∀ (s : Constraints) (x n : Nat),
      (∀ p ∈ s.known_indexes, p.1 < n) → ((s.known_indexes.map Prod.fst).Nodup) →
      x + cells.length ≤ n →
      (∀ p ∈ (processCells s x cells).known_indexes, p.1 < n)
      ∧ (((processCells s x cells).known_indexes).map Prod.fst).Nodup := by
  induction cells with
  | nil => intro s x n hb hnd _; exact ⟨hb, hnd⟩
  | cons cell rest ih =>
    intro s x n hb hnd hlen
    rw [List.length_cons] at hlen
    have hx : x < n := by omega
    exact ih (processCell s x cell) (x + 1) n
      (processCell_ki_bound s x cell n hb hx)
      (processCell_ki_nodup s x cell hnd)
      (by omega)

/-- The row loop keeps `known_indexes` keys below `n` and duplicate-free on a
grid whose rows all have `n` cells. -/
theorem processRows_ki_inv (rows : List (List Cell)) :
    ∀ (s : Constraints) (n : Nat),
      (∀ row ∈ rows, row.length = n) →
      (∀ p ∈ s.known_indexes, p.1 < n) → ((s.known_indexes.map Prod.fst).Nodup) →
      (∀ p ∈ (processRows s rows).known_indexes, p.1 < n)
      ∧ (((processRows s rows).known_indexes).map Prod.fst).Nodup := by
  induction rows with
  | nil => intro s n _ hb hnd; exact ⟨hb, hnd⟩
  | cons row rest ih =>
    intro s n hwf hb hnd
    have hrow : row.length = n := hwf row (List.mem_cons_self row rest)
    have hstep :
        (∀ p ∈ (processRow s row).known_indexes, p.1 < n)
        ∧ (((processRow s row).known_indexes).map Prod.fst).Nodup := by
      unfold processRow
      split
      · exact ⟨hb, hnd⟩
      · exact processCells_ki_inv row s 0 n hb hnd (by omega)
    exact ih (processRow s row) n (fun r hr => hwf r (List.mem_cons_of_mem row hr))
      hstep.1 hstep.2

/-- The derived `known_indexes` has keys below `n` and duplicate-free on a
well-sized grid; the subtraction step does not touch `known_indexes`. -/
theorem derive_ki_inv (rows : List (List Cell)) (n : Nat)
    (hwf : ∀ row ∈ rows, row.length = n) :
    (∀ p ∈ (derive_constraints rows).known_indexes, p.1 < n)
    ∧ (((derive_constraints rows).known_indexes).map Prod.fst).Nodup :=
  processRows_ki_inv rows initConstraints n hwf (by intro p hp; cases hp) (by simp [initConstraints])

/-- Unfolding of the candidate test into its five propositional conjuncts. -/
theorem word_matches_iff (s : Constraints) (n : Nat) (w : Word) :
    word_matches s n w = true ↔
      w.length = n
      ∧ (∀ p ∈ s.known_indexes, w.getD p.1 ' ' = p.2)
      ∧ (∀ p ∈ s.known_unindexes, w.getD p.1 ' ' ∉ p.2)
      ∧ w.toFinset ∩ s.forbidden_letters = ∅
      ∧ s.present_letters \ w.toFinset = ∅ := by
  unfold word_matches
  simp only [Bool.and_eq_true, decide_eq_true_eq, List.all_eq_true,
    Bool.not_eq_true', decide_eq_false_iff_not, and_assoc]

/-- C1: every word yielded by the candidate filter has length `n`, carries
the required letter at every `knownIndexes` position, avoids each position's
`knownUnindexes` letters, shares no letter with `forbiddenLetters` and
contains every `presentLetters` letter.  Since the yielded list is exactly
the filter of the corpus by these five checks, no violating word is ever
yielded. -/
theorem constraint_soundness (allWords : List Word) (rows : List (List Cell)) (n : Nat)
    (hwf : ∀ row ∈ rows, row.length = n) (cands : List Word)
    (hok : infer_next_options allWords rows n = Except.ok cands)
    (w : Word) (hw : w ∈ cands) :
    w.length = n
    ∧ (∀ i c, (i, c) ∈ (derive_constraints rows).known_indexes → w[i]? = some c)
    ∧ (∀ i ls, (i, ls) ∈ (derive_constraints rows).known_unindexes →
        ∀ h : i < w.length, w.get ⟨i, h⟩ ∉ ls)
    ∧ w.toFinset ∩ (derive_constraints rows).forbidden_letters = ∅
    ∧ (derive_constraints rows).present_letters ⊆ w.toFinset := by
  simp only [infer_next_options] at hok
  split at hok
  · cases hok
  · have hcands : allWords.filter (word_matches (derive_constraints rows) n) = cands :=
      congrArg (fun e => match e with | Except.ok v => v | Except.error _ => []) hok
    rw [← hcands, List.mem_filter] at hw
    obtain ⟨hlen, hki, hku, hforb, hpres⟩ := (word_matches_iff _ _ _).mp hw.2
    refine ⟨hlen, ?_, ?_, hforb, Finset.sdiff_eq_empty_iff_subset.mp hpres⟩
    · intro i c hic
      have hib : i < w.length := by
        rw [hlen]
        exact (derive_ki_inv rows n hwf).1 (i, c) hic
      have hval := hki (i, c) hic
      rw [List.getD_eq_getElem?_getD, List.getElem?_eq_getElem hib, Option.getD_some]
        at hval
      rw [List.getElem?_eq_getElem hib]
      exact congrArg some hval
    · intro i ls hils h
      have hval := hku (i, ls) hils
      rw [List.getD_eq_getElem?_getD, List.getElem?_eq_getElem h, Option.getD_some]
        at hval
      rw [List.get_eq_getElem]
      exact hval

/-- Witness for `constraint_soundness`: corpus `["ac", "bb"]`, one played row
Correct `'a'` / Absent `'b'`, where the filter yields exactly `["ac"]`. -/
theorem constraint_soundness_witness : ("ac".toList).length = 2 :=
  (constraint_soundness ["ac".toList, "bb".toList]
    [[Cell.mk (some 'a') ["correct"], Cell.mk (some 'b') ["absent"]]] 2
    (by decide) ["ac".toList] (by decide) "ac".toList (by decide)).1

/-- The letters carried by Absent-marked cells of one row. -/
def absentRowLetters (row : List Cell) : Finset Char :=
  (row.filterMap (fun cell => if cell.absent then cell.content else none)).toFinset

/-- The letters carried by Absent-marked cells anywhere in the grid (the
spec's "all Absent-cell letters"). -/
def absentLetters (rows : List (List Cell)) : Finset Char :=
  ((rows.map (fun row => row.filterMap
      (fun cell => if cell.absent then cell.content else none))).flatten).toFinset

/-- A cell carries at most one of the three state markers — the shape every
cell of the spec's Grid data model has (`state : Empty|Correct|Present|Absent`
is a single value). -/
def atMostOneMarker (cell : Cell) : Bool :=
  decide ((if cell.correct then 1 else 0) + (if cell.present then 1 else 0)
    + (if cell.absent then (1 : Nat) else 0) ≤ 1)

/-- A grid conforming to the spec's data model: every cell has at most one
state marker. -/
def specGrid (rows : List (List Cell)) : Prop :=
  ∀ row ∈ rows, ∀ cell ∈ row, atMostOneMarker cell = true

instance (rows : List (List Cell)) : Decidable (specGrid rows) :=
  inferInstanceAs (Decidable (∀ row ∈ rows, ∀ cell ∈ row, atMostOneMarker cell = true))

/-- On a single-marker cell, Absent excludes the other two markers. -/
theorem atMostOne_absent (cell : Cell) (h : atMostOneMarker cell = true)
    (ha : cell.absent = true) : cell.correct = false ∧ cell.present = false := by
  cases hc : cell.correct <;> cases hp : cell.present <;>
    simp [atMostOneMarker, hc, hp, ha] at h ⊢

/-- Cell loop: the accumulated `forbidden_letters` grows by exactly the
Absent-cell letters of the row, on single-marker cells. -/
theorem processCells_forbidden (cells : List Cell) :
    ∀ (s : Constraints) (x : Nat), (∀ cell ∈ cells, atMostOneMarker cell = true) →
      (processCells s x cells).forbidden_letters =
        s.forbidden_letters ∪ absentRowLetters cells := by
  induction cells with
  | nil => intro s x _; simp [processCells, absentRowLetters]
  | cons cell rest ih =>
    intro s x h
    rw [processCells, ih _ _ (fun d hd => h d (List.mem_cons_of_mem _ hd))]
    have hms : absentRowLetters (cell :: rest) =
        (match (if cell.absent then cell.content else none : Option Char) with
          | some c => insert c (absentRowLetters rest)
          | none => absentRowLetters rest) := by
      cases hof : (if cell.absent then cell.content else none : Option Char) <;>
        simp [absentRowLetters, List.filterMap_cons, hof]
    cases hcc : cell.content with
    | none =>
      have : (if cell.absent then cell.content else none : Option Char) = none := by
        rw [hcc]; cases cell.absent <;> rfl
      rw [hms, this]
      simp [processCell, hcc]
    | some c =>
      cases ha : cell.absent with
      | false =>
        have : (if cell.absent then cell.content else none : Option Char) = none := by
          rw [ha]; rfl
        rw [hms, this]
        cases hcor : cell.correct <;> cases hp : cell.present <;>
          simp [processCell, hcc, hcor, hp, ha]
      | true =>
        obtain ⟨hcor, hp⟩ := atMostOne_absent cell (h cell (List.mem_cons_self _ _)) ha
        have : (if cell.absent then cell.content else none : Option Char) = some c := by
          simp [ha, hcc]
        rw [hms, this]
        simp [processCell, hcc, hcor, hp, ha, Finset.insert_union, Finset.union_insert]

/-- An all-empty row carries no Absent letters. -/
theorem absentRowLetters_of_all_empty (row : List Cell)
    (h : row.all Cell.empty = true) : absentRowLetters row = ∅ := by
  induction row with
  | nil => rfl
  | cons cell rest ih =>
    rw [List.all_cons, Bool.and_eq_true] at h
    have hcc : cell.content = none := by
      have := h.1
      unfold Cell.empty at this
      cases hc : cell.content
      · rfl
      · rw [hc] at this; cases this
    have hof : (if cell.absent then cell.content else none : Option Char) = none := by
      rw [hcc]; cases cell.absent <;> rfl
    unfold absentRowLetters
    rw [List.filterMap_cons, hof]
    exact ih h.2

/-- Row loop: the accumulated `forbidden_letters` grows by exactly the
Absent-cell letters of the grid, on single-marker cells. -/
theorem processRows_forbidden (rows : List (List Cell)) :
    ∀ s : Constraints, specGrid rows →
      (processRows s rows).forbidden_letters =
        s.forbidden_letters ∪ absentLetters rows := by
  induction rows with
  | nil => intro s _; simp [processRows, absentLetters]
  | cons row rest ih =>
    intro s h
    have hjoin : absentLetters (row :: rest) = absentRowLetters row ∪ absentLetters rest := by
      unfold absentLetters absentRowLetters
      rw [List.map_cons, List.flatten_cons, List.toFinset_append]
    rw [processRows, ih _ (fun r hr => h r (List.mem_cons_of_mem _ hr)), hjoin]
    have hrow : (processRow s row).forbidden_letters =
        s.forbidden_letters ∪ absentRowLetters row := by
      unfold processRow
      split
      · rename_i hall
        rw [absentRowLetters_of_all_empty row hall, Finset.union_empty]
      · exact processCells_forbidden row s 0 (h row (List.mem_cons_self _ _))
    rw [hrow, Finset.union_assoc]

/-- C3: on spec-conformant grids (one state marker per cell),
`forbiddenLetters` equals the Absent-cell letters minus the `knownIndexes`
values minus `presentLetters`; and on the Scenario C row
`[Present 'a', Absent 'a', Empty, Empty, Empty]` the derived constraints have
`presentLetters = {'a'}` and `'a' ∉ forbiddenLetters`. -/
theorem forbidden_subtraction_rule :
    (∀ rows : List (List Cell), specGrid rows →
      (derive_constraints rows).forbidden_letters =
        (absentLetters rows \ kiValues (derive_constraints rows).known_indexes) \
          (derive_constraints rows).present_letters)
    ∧ (derive_constraints
        [[⟨some 'a', ["present"]⟩, ⟨some 'a', ["absent"]⟩,
          ⟨none, []⟩, ⟨none, []⟩, ⟨none, []⟩]]).present_letters = {'a'}
    ∧ 'a' ∉ (derive_constraints
        [[⟨some 'a', ["present"]⟩, ⟨some 'a', ["absent"]⟩,
          ⟨none, []⟩, ⟨none, []⟩, ⟨none, []⟩]]).forbidden_letters := by
  refine ⟨fun rows h => ?_, by decide, by decide⟩
  have hraw : (derive_raw rows).forbidden_letters = absentLetters rows := by
    have := processRows_forbidden rows initConstraints h
    rwa [show initConstraints.forbidden_letters = ∅ from rfl, Finset.empty_union] at this
  show (subtract_known (derive_raw rows)).forbidden_letters = _
  unfold subtract_known
  rw [hraw]
  rfl

/-- Witness for `forbidden_subtraction_rule` on the Scenario C grid. -/
theorem forbidden_subtraction_rule_witness :
    (derive_constraints
        [[⟨some 'a', ["present"]⟩, ⟨some 'a', ["absent"]⟩,
          ⟨none, []⟩, ⟨none, []⟩, ⟨none, []⟩]]).forbidden_letters =
      (absentLetters
          [[⟨some 'a', ["present"]⟩, ⟨some 'a', ["absent"]⟩,
            ⟨none, []⟩, ⟨none, []⟩, ⟨none, []⟩]] \
        kiValues (derive_constraints
          [[⟨some 'a', ["present"]⟩, ⟨some 'a', ["absent"]⟩,
            ⟨none, []⟩, ⟨none, []⟩, ⟨none, []⟩]]).known_indexes) \
        (derive_constraints
          [[⟨some 'a', ["present"]⟩, ⟨some 'a', ["absent"]⟩,
            ⟨none, []⟩, ⟨none, []⟩, ⟨none, []⟩]]).present_letters :=
  forbidden_subtraction_rule.1 _ (by decide)

instance : IsAntisymm Nat (· < ·) :=
  ⟨fun _ _ h1 h2 => absurd h1 (Nat.lt_asymm h2)⟩

/-- With duplicate-free keys all below `n`, the map has `n` entries iff every
position below `n` carries a key. -/
theorem ki_length_iff_covers (K : List (Nat × Char)) (n : Nat)
    (hnd : (K.map Prod.fst).Nodup) (hb : ∀ p ∈ K, p.1 < n) :
    K.length = n ↔ ∀ i < n, i ∈ K.map Prod.fst := by
  have hsub : (K.map Prod.fst).toFinset ⊆ Finset.range n := by
    intro i hi
    rw [List.mem_toFinset, List.mem_map] at hi
    obtain ⟨p, hp, he⟩ := hi
    rw [Finset.mem_range, ← he]
    exact hb p hp
  have hcard : (K.map Prod.fst).toFinset.card = K.length := by
    rw [List.toFinset_card_of_nodup hnd, List.length_map]
  constructor
  · intro hlen i hi
    have heq : (K.map Prod.fst).toFinset = Finset.range n :=
      Finset.eq_of_subset_of_card_le hsub (by rw [hcard, hlen, Finset.card_range])
    have hm : i ∈ Finset.range n := Finset.mem_range.mpr hi
    rw [← heq, List.mem_toFinset] at hm
    exact hm
  · intro hcov
    have hsup : Finset.range n ⊆ (K.map Prod.fst).toFinset := by
      intro i hi
      rw [List.mem_toFinset]
      exact hcov i (Finset.mem_range.mp hi)
    have heq := congrArg Finset.card (Finset.Subset.antisymm hsub hsup)
    rwa [hcard, Finset.card_range] at heq

/-- When every position is known, the joined `sorted(known_indexes.items())`
word places each known letter exactly at its position. -/
theorem win_word_position (K : List (Nat × Char)) (n : Nat)
    (hnd : (K.map Prod.fst).Nodup) (hb : ∀ p ∈ K, p.1 < n) (hlen : K.length = n) :
    (win_word K).length = n ∧ ∀ i c, (i, c) ∈ K → (win_word K)[i]? = some c := by
  set L := List.insertionSort keyLe K with hL
  have hperm : L.Perm K := List.perm_insertionSort keyLe K
  have hLlen : L.length = n := by rw [hperm.length_eq, hlen]
  have hLnd : (L.map Prod.fst).Nodup := ((hperm.map Prod.fst).nodup_iff).mpr hnd
  have hLs : List.Sorted keyLe L := List.sorted_insertionSort keyLe K
  have hkeys_sorted : (L.map Prod.fst).Pairwise (· ≤ ·) := by
    rw [List.pairwise_map]
    exact hLs
  have hkeys_lt : (L.map Prod.fst).Pairwise (· < ·) :=
    (hkeys_sorted.and hLnd).imp (fun h => lt_of_le_of_ne h.1 h.2)
  have hsubset : (L.map Prod.fst) ⊆ List.range n := by
    intro i hi
    rw [List.mem_map] at hi
    obtain ⟨p, hp, he⟩ := hi
    rw [List.mem_range, ← he]
    exact hb p (hperm.subset hp)
  have hkeyseq : (L.map Prod.fst) = List.range n := by
    refine List.eq_of_perm_of_sorted ?_ hkeys_lt (List.sorted_lt_range n)
    refine (List.subperm_of_subset hLnd hsubset).perm_of_length_le ?_
    rw [List.length_range, List.length_map, hLlen]
  constructor
  · rw [win_word, ← hL, List.length_map, hLlen]
  · intro i c hic
    have hicL : (i, c) ∈ L := hperm.mem_iff.mpr hic
    obtain ⟨j, hj, hje⟩ := List.getElem_of_mem hicL
    have h1 : (L.map Prod.fst)[j]? = some (L[j].1) := by
      rw [List.getElem?_map, List.getElem?_eq_getElem hj]
      rfl
    have hjr : j < (List.range n).length := by
      rw [List.length_range, ← hLlen]
      exact hj
    have h2 : (L.map Prod.fst)[j]? = some j := by
      rw [hkeyseq, List.getElem?_eq_getElem hjr, List.getElem_range]
    have hfst : L[j].1 = j := Option.some.inj (h1.symm.trans h2)
    have hij : i = j := by
      have := congrArg Prod.fst hje
      rw [hfst] at this
      exact this.symm
    rw [win_word, ← hL, List.getElem?_map, hij, List.getElem?_eq_getElem hj, hje]
    rfl

/-- C2: the engine signals Win iff `knownIndexes` covers all `n` positions —
equivalently, iff a `Win` payload exists — and the payload is the word whose
letter at each position `i` is the `knownIndexes` letter for `i` (the letters
read in position order).  In the Win case the embedding returns
`Except.error` and no candidate list at all: the generator raises before
yielding, so the filter produces nothing and the Selector is not reached. -/
theorem win_detection (allWords : List Word) (rows : List (List Cell)) (n : Nat)
    (hwf : ∀ row ∈ rows, row.length = n) :
    ((∃ w, infer_next_options allWords rows n = Except.error w) ↔
      ∀ i < n, i ∈ (derive_constraints rows).known_indexes.map Prod.fst)
    ∧ ∀ w, infer_next_options allWords rows n = Except.error w →
        w.length = n ∧ ∀ i c, (i, c) ∈ (derive_constraints rows).known_indexes →
          w[i]? = some c := by
  obtain ⟨hb, hnd⟩ := derive_ki_inv rows n hwf
  have hiff := ki_length_iff_covers (derive_constraints rows).known_indexes n hnd hb
  refine ⟨⟨?_, ?_⟩, ?_⟩
  · rintro ⟨w, hw⟩
    simp only [infer_next_options] at hw
    split at hw
    · rename_i hlen
      exact hiff.mp hlen
    · cases hw
  · intro hcov
    refine ⟨win_word (derive_constraints rows).known_indexes, ?_⟩
    simp only [infer_next_options]
    rw [if_pos (hiff.mpr hcov)]
  · intro w hw
    simp only [infer_next_options] at hw
    split at hw
    · rename_i hlen
      injection hw with hwin
      rw [← hwin]
      exact win_word_position (derive_constraints rows).known_indexes n hnd hb hlen
    · cases hw

/-- Witness for `win_detection` on a fully-Correct one-row grid for `n = 2`:
the Win signal fires and carries `"ab"`. -/
theorem win_detection_witness :
    (∃ w, infer_next_options []
        [[Cell.mk (some 'a') ["correct"], Cell.mk (some 'b') ["correct"]]] 2 =
      Except.error w)
    ∧ (('a', 'b') = ('a', 'b')) :=
  ⟨(win_detection []
      [[Cell.mk (some 'a') ["correct"], Cell.mk (some 'b') ["correct"]]] 2
      (by decide)).1.mpr (by decide), rfl⟩

/-- C7: in the inference state (first row not all empty, no Win raised), the
Selector's pool is the full length-`n` corpus with uniform weights (`none`)
iff the deduplicated candidate set minus `attempted` is empty; otherwise the
pool is exactly that constrained set with its score weights.  The fallback
pool contains every length-`n` corpus word — in particular already-attempted
ones — and is non-empty whenever the corpus has any length-`n` word, so the
round never lacks candidates. -/
theorem degenerate_fallback (allWords : List Word) (r0 : List Cell)
    (rest : List (List Cell)) (n : Nat) (attempted : Finset Word)
    (h0 : r0.all Cell.empty = false) (cs : List Word)
    (hok : infer_next_options allWords (r0 :: rest) n = Except.ok cs) :
    (round_pool allWords (r0 :: rest) n attempted =
        some (Except.ok (allWords.filter (fun w => decide (w.length = n)), none))
      ↔ constrained_pool cs attempted = [])
    ∧ (constrained_pool cs attempted ≠ [] →
        round_pool allWords (r0 :: rest) n attempted =
          some (Except.ok (constrained_pool cs attempted,
            some ((constrained_pool cs attempted).map score_word))))
    ∧ (∀ w, w ∈ attempted → w ∈ allWords → w.length = n →
        w ∈ allWords.filter (fun w => decide (w.length = n)))
    ∧ ((∃ w, w ∈ allWords ∧ w.length = n) →
        ∃ p ws, round_pool allWords (r0 :: rest) n attempted =
            some (Except.ok (p, ws)) ∧ p ≠ []) := by
  have hrp : round_pool allWords (r0 :: rest) n attempted =
      some (Except.ok (apply_fallback allWords n (constrained_pool cs attempted)
        (some ((constrained_pool cs attempted).map score_word)))) := by
    rw [round_pool, if_neg (by rw [h0]; exact Bool.false_ne_true), hok]
  by_cases hp : constrained_pool cs attempted = []
  · have hfb : apply_fallback allWords n (constrained_pool cs attempted)
        (some ((constrained_pool cs attempted).map score_word)) =
        (allWords.filter (fun w => decide (w.length = n)), none) := by
      rw [apply_fallback, if_pos (by rw [hp]; rfl)]
    refine ⟨⟨fun _ => hp, fun _ => by rw [hrp, hfb]⟩,
      fun hne => absurd hp hne, fun w _ hw hwn => ?_, fun ⟨w, hw, hwn⟩ => ?_⟩
    · rw [List.mem_filter]
      exact ⟨hw, by simp [hwn]⟩
    · refine ⟨allWords.filter (fun w => decide (w.length = n)), none, by rw [hrp, hfb], ?_⟩
      intro hnil
      have : w ∈ allWords.filter (fun w => decide (w.length = n)) := by
        rw [List.mem_filter]
        exact ⟨hw, by simp [hwn]⟩
      rw [hnil] at this
      cases this
  · have hfb : apply_fallback allWords n (constrained_pool cs attempted)
        (some ((constrained_pool cs attempted).map score_word)) =
        (constrained_pool cs attempted,
          some ((constrained_pool cs attempted).map score_word)) := by
      rw [apply_fallback, if_neg (by rwa [List.isEmpty_iff])]
    refine ⟨⟨fun heq => ?_, fun h => absurd h hp⟩,
      fun _ => by rw [hrp, hfb], fun w _ hw hwn => ?_, fun _ => ?_⟩
    · rw [hrp, hfb] at heq
      have := (Prod.mk.injEq _ _ _ _).mp
        (Except.ok.inj (Option.some.inj heq))
      cases this.2
    · rw [List.mem_filter]
      exact ⟨hw, by simp [hwn]⟩
    · exact ⟨constrained_pool cs attempted,
        some ((constrained_pool cs attempted).map score_word), by rw [hrp, hfb], hp⟩

/-- Witness for `degenerate_fallback`: corpus `["ab"]`, a played row with
Absent `'a'` eliminating every corpus word, so the fallback returns the full
length-2 corpus unweighted. -/
theorem degenerate_fallback_witness :
    round_pool ["ab".toList] [[Cell.mk (some 'a') ["absent"], Cell.mk none []]] 2 ∅ =
      some (Except.ok (["ab".toList].filter (fun w => decide (w.length = 2)), none)) :=
  (degenerate_fallback ["ab".toList] [Cell.mk (some 'a') ["absent"], Cell.mk none []]
    [] 2 ∅ (by decide) [] (by decide)).1.mpr (by decide)

